import Mathlib

/-!
Shallow embedding of the itinerary-optimization core of
`src/QuestionNo5/WeatherApp.py` (classes `TouristSpot`, `Itinerary`,
`ItineraryOptimizer`).

Modelling conventions:
* `entry_fee` and `budget` are non-negative integers (Python ints used
  non-negatively), modelled as `ℕ`; times and scores are Python floats,
  modelled as `ℚ`.
* `TouristSpot.distance_to` computes `math.sqrt(dx*dx + dy*dy)` on floats.
  Square roots of rationals are irrational in general, so the distance
  function is an explicit parameter `D : Spot → Spot → ℚ` of every
  definition that the Python code would evaluate `distance_to` in;
  theorems quantify over all `D`, concrete instances pick a `D` realised
  by actual coordinates (e.g. all sites at one point give `D = 0`).
* `tags` and the interest set are Python sets of strings, modelled as
  `Finset String` (their only use is intersection cardinality).
* `_nearest_neighbor` iterates `min` over a Python `set`, whose iteration
  order is arbitrary (hash/identity based).  That order is modelled as an
  explicit parameter `ord : List Spot → List Spot` giving the sequence in
  which the set `set(spots[1:])` is enumerated; removal keeps the relative
  order of the remaining elements, as in CPython.
-/

/-- `TouristSpot` from the source: name, planar coordinates, entry fee,
opening window (informational strings) and tag set. -/
structure Spot where
  name : String
  latitude : ℚ
  longitude : ℚ
  entry_fee : ℕ
  open_time : String
  close_time : String
  tags : Finset String
deriving DecidableEq

/-- `TouristSpot.interest_score`: `len(self.tags & user_interests) * 10`. -/
def Spot.interest_score (s : Spot) (user_interests : Finset String) : ℕ :=
  (s.tags ∩ user_interests).card * 10

/-- Sum of entry fees of a list of spots, as in
`sum(spot.entry_fee for spot in spots)`. -/
def feeSum (l : List Spot) : ℕ :=
  (l.map Spot.entry_fee).sum

/-- Travel-time part of `Itinerary._calculate_time`: for consecutive spots,
`distance * 20` summed over adjacent pairs. -/
def travelSum (D : Spot → Spot → ℚ) : List Spot → ℚ
  | [] => 0
  | [_] => 0
  | a :: b :: rest => D a b * 20 + travelSum D (b :: rest)

/-- `Itinerary._calculate_time`: `0.0` for an empty sequence, otherwise
2 hours per spot plus the travel time between consecutive spots.  (The
brute-force planner recomputes the same expression inline for each
permutation.) -/
def tourTime (D : Spot → Spot → ℚ) (l : List Spot) : ℚ :=
  if l = [] then 0 else l.length * 2 + travelSum D l

/-- The `Itinerary` record: spot sequence, producing algorithm's label and
the two derived totals. -/
structure Itinerary where
  spots : List Spot
  algorithm : String
  total_cost : ℕ
  total_time : ℚ
deriving DecidableEq

/-- `Itinerary.__init__`: stores the sequence and computes `total_cost`
and `total_time` from it. -/
def mkItinerary (D : Spot → Spot → ℚ) (spots : List Spot) (alg : String) :
    Itinerary :=
  { spots := spots
    algorithm := alg
    total_cost := feeSum spots
    total_time := tourTime D spots }

/-- Score of a spot sequence as used by both planners when comparing
results: `sum(s.interest_score(interests)) - cost/100`.  The empty
sequence scores `0`. -/
def seqScore (interests : Finset String) (l : List Spot) : ℚ :=
  ((l.map (fun s => (s.interest_score interests : ℚ))).sum) -
    (feeSum l : ℚ) / 100

/-- Score of an itinerary (see `seqScore`). -/
def itinScore (interests : Finset String) (it : Itinerary) : ℚ :=
  seqScore interests it.spots

/-- Python's `min(iterable, key=f)` on a non-empty list: the first element
whose key is strictly smaller than every earlier element's key wins. -/
def pyMin (key : Spot → ℚ) (x : Spot) (xs : List Spot) : Spot :=
  xs.foldl (fun best s => if key s < key best then s else best) x

/-- The `while remaining:` loop of `_nearest_neighbor`: `acc` is the route
built so far in reverse (`current` is its head, the last-placed spot),
`remaining` lists the unplaced spots in the set's iteration order. -/
def nnLoop (D : Spot → Spot → ℚ) (current : Spot) (acc : List Spot) :
    (remaining : List Spot) → List Spot
  | [] => acc.reverse
  | r :: rs =>
    let nearest := pyMin (fun s => D current s) r rs
    nnLoop D nearest (nearest :: acc) ((r :: rs).erase nearest)
termination_by remaining => remaining.length
decreasing_by
  have hgen : ∀ (xs : List Spot) (x : Spot),
      pyMin (fun s => D current s) x xs ∈ x :: xs := by
    intro xs
    induction xs with
    | nil => intro x; simp [pyMin]
    | cons y ys ih =>
      intro x
      simp only [pyMin, List.foldl_cons]
      by_cases h : D current y < D current x
      · simp only [if_pos h]
        have hm := ih y
        simp only [pyMin, List.mem_cons] at hm
        rcases hm with h1 | h1 <;> simp [List.mem_cons, h1]
      · simp only [if_neg h]
        have hm := ih x
        simp only [pyMin, List.mem_cons] at hm
        rcases hm with h1 | h1 <;> simp [List.mem_cons, h1]
  rw [List.length_erase_of_mem (hgen rs r)]
  simp

/-- `ItineraryOptimizer._nearest_neighbor`: collections of size ≤ 1 are
returned unchanged; otherwise the route starts at the first element and
repeatedly appends the remaining spot closest to the last-placed one.
`ord` supplies the iteration order of the Python set `set(spots[1:])`. -/
def nearest_neighbor (D : Spot → Spot → ℚ) (ord : List Spot → List Spot)
    (spots : List Spot) : List Spot :=
  if spots.length ≤ 1 then spots
  else
    match spots with
    | [] => []
    | s :: rest => nnLoop D s [s] (ord rest)

/-- Per-spot greedy ranking value from `greedy_heuristic`:
`interest_score + cost_score` where `cost_score = -entry_fee / 100`. -/
def greedyScore (interests : Finset String) (s : Spot) : ℚ :=
  (s.interest_score interests : ℚ) + (-(s.entry_fee : ℚ) / 100)

/-- The scored, sorted candidate list of `greedy_heuristic`:
`scored_spots.sort(reverse=True, key=lambda x: x[0])`.  Python's sort is
stable, and `reverse=True` yields descending keys with equal-key elements
kept in original order, which is what a stable merge sort with the
relation `b.1 ≤ a.1` produces. -/
def greedySort (interests : Finset String) (spots : List Spot) :
    List (ℚ × Spot) :=
  (spots.map (fun s => (greedyScore interests s, s))).mergeSort
    (fun a b => decide (b.1 ≤ a.1))

/-- State of the greedy selection loop: the accepted spots in acceptance
order, plus the two remaining pools. -/
structure SelState where
  selected : List Spot
  remaining_budget : ℕ
  remaining_time : ℚ
deriving DecidableEq

/-- One iteration of the greedy selection loop: travel is estimated at
0.5 h before any spot is accepted, and as `distance(last, spot) * 20`
afterwards; the spot is accepted iff its fee fits the remaining budget
and `2.0 + travel` fits the remaining time. -/
def selStep (D : Spot → Spot → ℚ) (st : SelState) (p : ℚ × Spot) :
    SelState :=
  let spot := p.2
  let travel : ℚ :=
    match st.selected.getLast? with
    | none => 1 / 2
    | some last => D last spot * 20
  let need := 2 + travel
  if spot.entry_fee ≤ st.remaining_budget ∧ need ≤ st.remaining_time then
    { selected := st.selected ++ [spot]
      remaining_budget := st.remaining_budget - spot.entry_fee
      remaining_time := st.remaining_time - need }
  else st

/-- The repair loop of `greedy_heuristic`: reorder the current selection
with `_nearest_neighbor`, return the itinerary if it fits the time
budget, otherwise drop the last (lowest-ranked) selected spot and retry;
an exhausted selection yields an empty itinerary. -/
def repairLoop (D : Spot → Spot → ℚ) (ord : List Spot → List Spot)
    (time_available : ℚ) (sel : List Spot) : Itinerary :=
  if h : sel = [] then mkItinerary D [] "Greedy Heuristic"
  else
    let route := nearest_neighbor D ord sel
    let it := mkItinerary D route "Greedy Heuristic"
    if it.total_time ≤ time_available then it
    else repairLoop D ord time_available sel.dropLast
termination_by sel.length
decreasing_by
  rw [List.length_dropLast]
  cases sel with
  | nil => exact absurd rfl h
  | cons a l => simp

/-- `ItineraryOptimizer.greedy_heuristic`: rank all spots, select greedily
under both budgets, then repair the selection until its nearest-neighbor
route fits the time budget. -/
def greedy_heuristic (D : Spot → Spot → ℚ) (ord : List Spot → List Spot)
    (spots : List Spot) (budget : ℕ) (time_available : ℚ)
    (interests : Finset String) : Itinerary :=
  let sorted := greedySort interests spots
  let st := sorted.foldl (selStep D)
    { selected := [], remaining_budget := budget,
      remaining_time := time_available }
  if st.selected = [] then mkItinerary D [] "Greedy Heuristic"
  else repairLoop D ord time_available st.selected

/-- The inner permutation loop of `brute_force`: the best (minimum
`tourTime`) permutation of a subset together with that time, `none` for
the empty subset (Python keeps `min_time = inf`, `best_perm = None`
there).  The strict `<` keeps the first minimal permutation found. -/
def permStep (D : Spot → Spot → ℚ) (best : Option (ℚ × List Spot))
    (p : List Spot) : Option (ℚ × List Spot) :=
  match best with
  | none => some (tourTime D p, p)
  | some (m, bp) =>
    if tourTime D p < m then some (tourTime D p, p) else some (m, bp)

/-- The fold of `permStep` over all permutations of the subset, in the
role of the `for perm in itertools.permutations(subset)` loop. -/
def bestPerm (D : Spot → Spot → ℚ) (subset : List Spot) :
    Option (ℚ × List Spot) :=
  subset.permutations.foldl (permStep D) none

/-- One subset step of `brute_force`: skip over-budget subsets; find the
best permutation; if its time fits, score the subset and keep it when the
score strictly beats the best so far. -/
def bruteStep (D : Spot → Spot → ℚ) (budget : ℕ) (time_available : ℚ)
    (interests : Finset String) (st : ℚ × List Spot) (subset : List Spot) :
    ℚ × List Spot :=
  if budget < feeSum subset then st
  else
    match bestPerm D subset with
    | none => st
    | some (m, bp) =>
      if m ≤ time_available then
        let score :=
          ((bp.map (fun s => (s.interest_score interests : ℚ))).sum) -
            (feeSum subset : ℚ) / 100
        if st.1 < score then (score, bp) else st
      else st

/-- The subset enumeration of `brute_force`: all combinations of size
`r = 1 .. n` drawn from the first `n = min(len(spots), 6)` spots.
`itertools.combinations` yields index-order sublists; `List.sublistsLen`
yields the same collection of sublists (enumeration order differs, which
only affects which of several equally-scored optima is kept). -/
def bruteSubsets (spots : List Spot) : List (List Spot) :=
  let n := min spots.length 6
  (List.range n).flatMap (fun r => List.sublistsLen (r + 1) (spots.take n))

/-- `ItineraryOptimizer.brute_force`: fold `bruteStep` over every
candidate subset, starting from score `-1` and an empty best itinerary. -/
def brute_force (D : Spot → Spot → ℚ) (spots : List Spot) (budget : ℕ)
    (time_available : ℚ) (interests : Finset String) : Itinerary :=
  let res := (bruteSubsets spots).foldl
    (bruteStep D budget time_available interests) (-1, [])
  mkItinerary D res.2 "Brute Force"

/-!
Concrete instances used by counterexamples and witnesses.  All three
spots carry the coordinates (0, 0), so the distance function realised by
`TouristSpot.distance_to` on them is exactly the constant `0` (float
`math.sqrt(0.0) = 0.0` with no rounding), modelled by `D0`.
-/

/-- The distance function of a catalog whose sites share one location. -/
def D0 : Spot → Spot → ℚ := fun _ _ => 0

/-- Insertion-order enumeration of the modelled Python set. -/
def ordId : List Spot → List Spot := fun l => l

/-- Reversed enumeration of the modelled Python set; a permutation of the
same elements, hence a legal iteration order for a hash set. -/
def ordRev : List Spot → List Spot := fun l => l.reverse

/-- A free culture-tagged site. -/
def spotA : Spot := ⟨"A", 0, 0, 0, "06:00", "18:00", {"culture"}⟩

/-- An untagged site with entry fee 100. -/
def spotB : Spot := ⟨"B", 0, 0, 100, "06:00", "18:00", ∅⟩

/-- An untagged site with entry fee 50. -/
def spotC : Spot := ⟨"C", 0, 0, 50, "06:00", "18:00", ∅⟩

/-!
Theorems.  General lemmas first, then one theorem per claim (with its
witness or counterexample where required).
-/

theorem pyMin_mem (key : Spot → ℚ) (x : Spot) (xs : List Spot) :
    pyMin key x xs ∈ x :: xs := by
  induction xs generalizing x with
  | nil => simp [pyMin]
  | cons y ys ih =>
    simp only [pyMin, List.foldl_cons]
    by_cases h : key y < key x
    · simp only [if_pos h]
      have hm := ih y
      simp only [pyMin, List.mem_cons] at hm
      rcases hm with h1 | h1 <;> simp [List.mem_cons, h1]
    · simp only [if_neg h]
      have hm := ih x
      simp only [pyMin, List.mem_cons] at hm
      rcases hm with h1 | h1 <;> simp [List.mem_cons, h1]

theorem nnLoop_perm (D : Spot → Spot → ℚ) (current : Spot)
    (acc rem : List Spot) :
    (nnLoop D current acc rem).Perm (acc.reverse ++ rem) := by
  induction current, acc, rem using nnLoop.induct D with
  | case1 current acc => simp [nnLoop]
  | case2 current acc r rs nearest ih =>
    rw [nnLoop]
    refine (ih.trans ?_)
    have hmem : nearest ∈ r :: rs := pyMin_mem (fun s => D current s) r rs
    have hp : (r :: rs).Perm (nearest :: (r :: rs).erase nearest) :=
      List.perm_cons_erase hmem
    have heq : ((nearest :: acc).reverse ++ (r :: rs).erase nearest)
        = acc.reverse ++ (nearest :: (r :: rs).erase nearest) := by simp
    rw [heq]
    exact (hp.symm.append_left acc.reverse)

theorem nnLoop_append (D : Spot → Spot → ℚ) (current : Spot)
    (acc rem : List Spot) :
    ∃ post, nnLoop D current acc rem = acc.reverse ++ post := by
  induction current, acc, rem using nnLoop.induct D with
  | case1 current acc => exact ⟨[], by simp [nnLoop]⟩
  | case2 current acc r rs nearest ih =>
    rw [nnLoop]
    obtain ⟨post, hpost⟩ := ih
    exact ⟨nearest :: post, by simp [hpost]⟩

theorem nearest_neighbor_perm (D : Spot → Spot → ℚ)
    (ord : List Spot → List Spot) (l : List Spot)
    (hord : ∀ xs : List Spot, (ord xs).Perm xs) :
    (nearest_neighbor D ord l).Perm l := by
  unfold nearest_neighbor
  by_cases hl : l.length ≤ 1
  · simp [hl]
  · simp only [if_neg hl]
    match l with
    | [] => simp at hl
    | s :: rest =>
      refine (nnLoop_perm D s [s] (ord rest)).trans ?_
      simpa using (hord rest).cons s

theorem nearest_neighbor_head (D : Spot → Spot → ℚ)
    (ord : List Spot → List Spot) (l : List Spot) :
    (nearest_neighbor D ord l).head? = l.head? := by
  unfold nearest_neighbor
  by_cases hl : l.length ≤ 1
  · simp [hl]
  · simp only [if_neg hl]
    match l with
    | [] => simp at hl
    | s :: rest =>
      obtain ⟨post, hpost⟩ := nnLoop_append D s [s] (ord rest)
      simp [hpost]

theorem nearest_neighbor_short (D : Spot → Spot → ℚ)
    (ord : List Spot → List Spot) (l : List Spot) (hl : l.length ≤ 1) :
    nearest_neighbor D ord l = l := by
  unfold nearest_neighbor
  simp [hl]

/-- C7: for a duplicate-free input, the route orderer returns a
permutation of its input (no duplicates or omissions), starting with the
first input element; inputs of size at most one are returned unchanged.
(The permutation and head facts hold for any legal iteration order of the
Python set, i.e. any `ord` that permutes its argument.) -/
theorem route_orderer_perm_head_spec (D : Spot → Spot → ℚ)
    (ord : List Spot → List Spot) (l : List Spot)
    (hord : ∀ xs : List Spot, (ord xs).Perm xs) (hnd : l.Nodup) :
    (nearest_neighbor D ord l).Perm l ∧
    (nearest_neighbor D ord l).head? = l.head? ∧
    (l.length ≤ 1 → nearest_neighbor D ord l = l) :=
  ⟨nearest_neighbor_perm D ord l hord, nearest_neighbor_head D ord l,
    fun hl => nearest_neighbor_short D ord l hl⟩

theorem route_orderer_perm_head_spec_witness :
    (nearest_neighbor D0 ordId [spotA, spotB, spotC]).Perm
      [spotA, spotB, spotC] ∧
    (nearest_neighbor D0 ordId [spotA, spotB, spotC]).head? =
      ([spotA, spotB, spotC].head?) ∧
    ([spotA, spotB, spotC].length ≤ 1 →
      nearest_neighbor D0 ordId [spotA, spotB, spotC] = [spotA, spotB, spotC]) :=
  route_orderer_perm_head_spec D0 ordId [spotA, spotB, spotC]
    (fun xs => List.Perm.refl xs) (by with_unfolding_all decide)

/-- C5: the code breaks distance ties by the iteration order of the
Python set `set(spots[1:])`, not by first-seen input order.  With three
co-located spots (every distance 0, so every remaining spot is at the
minimum distance), two legal enumerations of the same set — insertion
order and reversed order — produce different routes, so the route is not
determined by the input with a first-seen tie-break. -/
theorem route_orderer_tie_break_set_order :
    nearest_neighbor D0 ordId [spotA, spotB, spotC] ≠
      nearest_neighbor D0 ordRev [spotA, spotB, spotC] ∧
    (ordRev [spotB, spotC]).Perm [spotB, spotC] ∧
    D0 spotA spotB = D0 spotA spotC := by
  refine ⟨by with_unfolding_all decide, by with_unfolding_all decide, rfl⟩

theorem mkItinerary_spots (D : Spot → Spot → ℚ) (l : List Spot)
    (alg : String) : (mkItinerary D l alg).spots = l := rfl

theorem mkItinerary_total_cost (D : Spot → Spot → ℚ) (l : List Spot)
    (alg : String) : (mkItinerary D l alg).total_cost = feeSum l := rfl

theorem mkItinerary_total_time (D : Spot → Spot → ℚ) (l : List Spot)
    (alg : String) : (mkItinerary D l alg).total_time = tourTime D l := rfl

theorem feeSum_append (l : List Spot) (s : Spot) :
    feeSum (l ++ [s]) = feeSum l + s.entry_fee := by
  simp [feeSum]

theorem feeSum_perm {l l2 : List Spot} (h : l.Perm l2) :
    feeSum l = feeSum l2 :=
  (h.map Spot.entry_fee).sum_eq

theorem feeSum_sublist {l l2 : List Spot} (h : l.Sublist l2) :
    feeSum l ≤ feeSum l2 :=
  (h.map Spot.entry_fee).sum_le_sum (by simp)

theorem interestSum_perm (interests : Finset String) {l l2 : List Spot}
    (h : l.Perm l2) :
    (l.map (fun s => (s.interest_score interests : ℚ))).sum =
      (l2.map (fun s => (s.interest_score interests : ℚ))).sum :=
  (h.map (fun s => (s.interest_score interests : ℚ))).sum_eq

theorem seqScore_perm (interests : Finset String) {l l2 : List Spot}
    (h : l.Perm l2) : seqScore interests l = seqScore interests l2 := by
  unfold seqScore
  rw [interestSum_perm interests h, feeSum_perm h]

theorem selStep_selected (D : Spot → Spot → ℚ) (st : SelState)
    (p : ℚ × Spot) :
    (selStep D st p).selected = st.selected ∨
      (selStep D st p).selected = st.selected ++ [p.2] := by
  unfold selStep
  split <;> dsimp only <;> split
  · exact Or.inr rfl
  · exact Or.inl rfl
  · exact Or.inr rfl
  · exact Or.inl rfl

theorem selStep_budget (D : Spot → Spot → ℚ) (st : SelState)
    (p : ℚ × Spot) :
    feeSum (selStep D st p).selected + (selStep D st p).remaining_budget
      = feeSum st.selected + st.remaining_budget := by
  unfold selStep
  split <;> dsimp only <;> split
  all_goals
    first
      | rfl
      | (rename_i hcond
         simp only [feeSum_append]
         omega)

theorem selFold_selected_sublist (D : Spot → Spot → ℚ)
    (L : List (ℚ × Spot)) :
    ∀ st : SelState, ∃ ext,
      (L.foldl (selStep D) st).selected = st.selected ++ ext ∧
      ext.Sublist (L.map Prod.snd) := by
  induction L with
  | nil => intro st; exact ⟨[], by simp⟩
  | cons p ps ih =>
    intro st
    rw [List.foldl_cons]
    obtain ⟨ext, hext, hsub⟩ := ih (selStep D st p)
    rcases selStep_selected D st p with h | h
    · exact ⟨ext, by rw [hext, h], hsub.trans (List.sublist_cons_self _ _)⟩
    · refine ⟨p.2 :: ext, ?_, ?_⟩
      · rw [hext, h, List.append_assoc]
        rfl
      · simpa using hsub.cons₂ p.2

theorem selFold_budget (D : Spot → Spot → ℚ) (L : List (ℚ × Spot)) :
    ∀ st : SelState,
      feeSum (L.foldl (selStep D) st).selected +
          (L.foldl (selStep D) st).remaining_budget
        = feeSum st.selected + st.remaining_budget := by
  induction L with
  | nil => intro st; rfl
  | cons p ps ih =>
    intro st
    rw [List.foldl_cons, ih (selStep D st p), selStep_budget]

theorem greedySort_snd_perm (interests : Finset String)
    (spots : List Spot) :
    ((greedySort interests spots).map Prod.snd).Perm spots := by
  unfold greedySort
  refine ((List.mergeSort_perm _ _).map Prod.snd).trans ?_
  rw [List.map_map]
  have hcomp : (Prod.snd ∘ fun s => (greedyScore interests s, s)) =
      (id : Spot → Spot) := rfl
  rw [hcomp, List.map_id]

theorem repairLoop_mk (D : Spot → Spot → ℚ) (ord : List Spot → List Spot)
    (t : ℚ) (sel : List Spot) :
    ∃ l, repairLoop D ord t sel = mkItinerary D l "Greedy Heuristic" := by
  induction sel using repairLoop.induct D ord t with
  | case1 => exact ⟨[], by rw [repairLoop]; rfl⟩
  | case2 sel hsel route it hit =>
    exact ⟨nearest_neighbor D ord sel,
      by rw [repairLoop, dif_neg hsel, if_pos hit]⟩
  | case3 sel hsel route it hit ih =>
    obtain ⟨l, hl⟩ := ih
    exact ⟨l, by rw [repairLoop, dif_neg hsel, if_neg hit]; exact hl⟩

theorem repairLoop_time (D : Spot → Spot → ℚ) (ord : List Spot → List Spot)
    (t : ℚ) (sel : List Spot) :
    (repairLoop D ord t sel).spots = [] ∨
      (repairLoop D ord t sel).total_time ≤ t := by
  induction sel using repairLoop.induct D ord t with
  | case1 => left; rw [repairLoop]; rfl
  | case2 sel hsel route it hit =>
    right; rw [repairLoop, dif_neg hsel, if_pos hit]; exact hit
  | case3 sel hsel route it hit ih =>
    rw [repairLoop, dif_neg hsel, if_neg hit]; exact ih

theorem repairLoop_sub (D : Spot → Spot → ℚ) (ord : List Spot → List Spot)
    (t : ℚ) (sel : List Spot)
    (hord : ∀ xs : List Spot, (ord xs).Perm xs) :
    ∃ pre, pre.Sublist sel ∧ (repairLoop D ord t sel).spots.Perm pre := by
  induction sel using repairLoop.induct D ord t with
  | case1 =>
    exact ⟨[], by simp, by rw [repairLoop]; rfl⟩
  | case2 sel hsel route it hit =>
    refine ⟨sel, List.Sublist.refl sel, ?_⟩
    rw [repairLoop, dif_neg hsel, if_pos hit]
    exact nearest_neighbor_perm D ord sel hord
  | case3 sel hsel route it hit ih =>
    obtain ⟨pre, hsub, hperm⟩ := ih
    refine ⟨pre, hsub.trans (List.dropLast_sublist sel), ?_⟩
    rw [repairLoop, dif_neg hsel, if_neg hit]
    exact hperm

theorem greedy_mk (D : Spot → Spot → ℚ) (ord : List Spot → List Spot)
    (spots : List Spot) (b : ℕ) (t : ℚ) (i : Finset String) :
    ∃ l, greedy_heuristic D ord spots b t i =
      mkItinerary D l "Greedy Heuristic" := by
  unfold greedy_heuristic
  dsimp only
  split
  · exact ⟨[], rfl⟩
  · exact repairLoop_mk D ord t _

theorem greedy_time (D : Spot → Spot → ℚ) (ord : List Spot → List Spot)
    (spots : List Spot) (b : ℕ) (t : ℚ) (i : Finset String) :
    (greedy_heuristic D ord spots b t i).spots = [] ∨
      (greedy_heuristic D ord spots b t i).total_time ≤ t := by
  unfold greedy_heuristic
  dsimp only
  split
  · left; rfl
  · exact repairLoop_time D ord t _

theorem selFold_feeSum_le (D : Spot → Spot → ℚ) (L : List (ℚ × Spot))
    (b : ℕ) (t : ℚ) :
    feeSum ((L.foldl (selStep D)
      { selected := [], remaining_budget := b,
        remaining_time := t : SelState }).selected) ≤ b := by
  have h := selFold_budget D L
    { selected := [], remaining_budget := b, remaining_time := t }
  have h0 : feeSum ([] : List Spot) = 0 := rfl
  simp only [h0] at h
  omega

theorem greedy_cost (D : Spot → Spot → ℚ) (ord : List Spot → List Spot)
    (spots : List Spot) (b : ℕ) (t : ℚ) (i : Finset String)
    (hord : ∀ xs : List Spot, (ord xs).Perm xs) :
    feeSum (greedy_heuristic D ord spots b t i).spots ≤ b := by
  unfold greedy_heuristic
  dsimp only
  split
  · simp [mkItinerary, feeSum]
  · obtain ⟨pre, hsub, hperm⟩ := repairLoop_sub D ord t
      ((greedySort i spots).foldl (selStep D)
        { selected := [], remaining_budget := b, remaining_time := t }).selected
      hord
    rw [feeSum_perm hperm]
    exact le_trans (feeSum_sublist hsub) (selFold_feeSum_le D _ b t)

theorem greedy_subperm (D : Spot → Spot → ℚ) (ord : List Spot → List Spot)
    (spots : List Spot) (b : ℕ) (t : ℚ) (i : Finset String)
    (hord : ∀ xs : List Spot, (ord xs).Perm xs) :
    ∃ s, s.Sublist spots ∧ (greedy_heuristic D ord spots b t i).spots.Perm s := by
  unfold greedy_heuristic
  dsimp only
  split
  · exact ⟨[], List.nil_sublist spots, List.Perm.refl []⟩
  · obtain ⟨pre, hsub, hperm⟩ := repairLoop_sub D ord t
      ((greedySort i spots).foldl (selStep D)
        { selected := [], remaining_budget := b, remaining_time := t }).selected
      hord
    obtain ⟨ext, hext, hsubsort⟩ := selFold_selected_sublist D (greedySort i spots)
      { selected := [], remaining_budget := b, remaining_time := t }
    have hsel : ((greedySort i spots).foldl (selStep D)
        { selected := [], remaining_budget := b,
          remaining_time := t : SelState }).selected = ext := by
      simpa using hext
    have hpre : pre.Sublist ((greedySort i spots).map Prod.snd) := by
      rw [hsel] at hsub
      exact hsub.trans hsubsort
    have hsp : pre.Subperm spots :=
      (hpre.subperm).trans (greedySort_snd_perm i spots).subperm
    obtain ⟨s, hs1, hs2⟩ := hsp
    exact ⟨s, hs2, hperm.trans hs1.symm⟩

theorem permFold_go (D : Spot → Spot → ℚ) (L : List (List Spot)) :
    ∀ (m : ℚ) (bp : List Spot),
    ∃ m2 bp2, L.foldl (permStep D) (some (m, bp)) = some (m2, bp2) ∧
      ((m2 = m ∧ bp2 = bp) ∨ (bp2 ∈ L ∧ m2 = tourTime D bp2)) ∧
      m2 ≤ m ∧ ∀ p ∈ L, m2 ≤ tourTime D p := by
  induction L with
  | nil => intro m bp; exact ⟨m, bp, rfl, Or.inl ⟨rfl, rfl⟩, le_refl m, by simp⟩
  | cons q qs ih =>
    intro m bp
    rw [List.foldl_cons]
    by_cases hq : tourTime D q < m
    · have hstep : permStep D (some (m, bp)) q = some (tourTime D q, q) := by
        simp only [permStep]; rw [if_pos hq]
      rw [hstep]
      obtain ⟨m2, bp2, heq, hor, hle, hall⟩ := ih (tourTime D q) q
      refine ⟨m2, bp2, heq, ?_, (lt_of_le_of_lt hle hq).le, ?_⟩
      · rcases hor with ⟨h1, h2⟩ | ⟨h1, h2⟩
        · exact Or.inr ⟨by simp [h2], by rw [h1, h2]⟩
        · exact Or.inr ⟨by simp [h1], h2⟩
      · intro p hp
        rcases List.mem_cons.mp hp with h | h
        · rw [h]; exact hle
        · exact hall p h
    · have hstep : permStep D (some (m, bp)) q = some (m, bp) := by
        simp only [permStep]; rw [if_neg hq]
      rw [hstep]
      obtain ⟨m2, bp2, heq, hor, hle, hall⟩ := ih m bp
      refine ⟨m2, bp2, heq, ?_, hle, ?_⟩
      · rcases hor with ⟨h1, h2⟩ | ⟨h1, h2⟩
        · exact Or.inl ⟨h1, h2⟩
        · exact Or.inr ⟨List.mem_cons_of_mem q h1, h2⟩
      · intro p hp
        rcases List.mem_cons.mp hp with h | h
        · rw [h]; exact le_trans hle (le_of_not_lt hq)
        · exact hall p h

theorem bestPerm_spec (D : Spot → Spot → ℚ) (subset : List Spot) :
    ∃ m bp, bestPerm D subset = some (m, bp) ∧ bp.Perm subset ∧
      m = tourTime D bp ∧
      ∀ p ∈ subset.permutations, m ≤ tourTime D p := by
  unfold bestPerm
  have hmem : subset ∈ subset.permutations :=
    List.mem_permutations.mpr (List.Perm.refl subset)
  match hL : subset.permutations with
  | [] => rw [hL] at hmem; simp at hmem
  | q :: qs =>
    have hq : q ∈ subset.permutations := by rw [hL]; simp
    rw [List.foldl_cons]
    have hstep : permStep D none q = some (tourTime D q, q) := rfl
    rw [hstep]
    obtain ⟨m2, bp2, heq, hor, hle, hall⟩ := permFold_go D qs (tourTime D q) q
    refine ⟨m2, bp2, heq, ?_, ?_, ?_⟩
    · rcases hor with ⟨h1, h2⟩ | ⟨h1, h2⟩
      · rw [h2]; exact List.mem_permutations.mp hq
      · have : bp2 ∈ subset.permutations := by rw [hL]; simp [h1]
        exact List.mem_permutations.mp this
    · rcases hor with ⟨h1, h2⟩ | ⟨h1, h2⟩
      · rw [h1, h2]
      · exact h2
    · intro p hp
      rcases List.mem_cons.mp hp with h | h
      · rw [h]; exact hle
      · exact hall p h

theorem bruteStep_grow (D : Spot → Spot → ℚ) (b : ℕ) (t : ℚ)
    (i : Finset String) (st : ℚ × List Spot) (s : List Spot) :
    bruteStep D b t i st s = st ∨
    ∃ m bp, bestPerm D s = some (m, bp) ∧ ¬ b < feeSum s ∧ m ≤ t ∧
      bp.Perm s ∧ m = tourTime D bp ∧
      st.1 < ((bp.map (fun x => (x.interest_score i : ℚ))).sum -
        (feeSum s : ℚ) / 100) ∧
      bruteStep D b t i st s =
        (((bp.map (fun x => (x.interest_score i : ℚ))).sum -
          (feeSum s : ℚ) / 100), bp) := by
  unfold bruteStep
  by_cases h1 : b < feeSum s
  · left; rw [if_pos h1]
  · rw [if_neg h1]
    obtain ⟨m, bp, heq, hperm, hm, hall⟩ := bestPerm_spec D s
    rw [heq]
    dsimp only
    by_cases h2 : m ≤ t
    · rw [if_pos h2]
      by_cases h3 : st.1 <
          ((bp.map (fun x => (x.interest_score i : ℚ))).sum -
            (feeSum s : ℚ) / 100)
      · right
        exact ⟨m, bp, rfl, h1, h2, hperm, hm, h3, by rw [if_pos h3]⟩
      · left; rw [if_neg h3]
    · left; rw [if_neg h2]

theorem bruteStep_fst_mono (D : Spot → Spot → ℚ) (b : ℕ) (t : ℚ)
    (i : Finset String) (st : ℚ × List Spot) (s : List Spot) :
    st.1 ≤ (bruteStep D b t i st s).1 := by
  rcases bruteStep_grow D b t i st s with h | ⟨m, bp, _, _, _, _, _, hlt, heq2⟩
  · rw [h]
  · rw [heq2]; exact hlt.le

theorem bruteFold_fst_mono (D : Spot → Spot → ℚ) (b : ℕ) (t : ℚ)
    (i : Finset String) (L : List (List Spot)) :
    ∀ st : ℚ × List Spot, st.1 ≤ (L.foldl (bruteStep D b t i) st).1 := by
  induction L with
  | nil => intro st; exact le_refl _
  | cons s₀ L ih =>
    intro st
    rw [List.foldl_cons]
    exact le_trans (bruteStep_fst_mono D b t i st s₀) (ih _)

theorem bruteFold_sound (D : Spot → Spot → ℚ) (b : ℕ) (t : ℚ)
    (i : Finset String) (U : List Spot → Prop) (L : List (List Spot))
    (hL : ∀ s ∈ L, U s ∧ s ≠ []) :
    ∀ st : ℚ × List Spot,
    ((st.2 = [] → st.1 = -1) ∧
     (st.2 ≠ [] → -1 < st.1 ∧ tourTime D st.2 ≤ t ∧
       ∃ s, U s ∧ s ≠ [] ∧ feeSum s ≤ b ∧ st.2.Perm s ∧
         seqScore i s = st.1)) →
    (((L.foldl (bruteStep D b t i) st).2 = [] →
        (L.foldl (bruteStep D b t i) st).1 = -1) ∧
     ((L.foldl (bruteStep D b t i) st).2 ≠ [] →
        -1 < (L.foldl (bruteStep D b t i) st).1 ∧
        tourTime D (L.foldl (bruteStep D b t i) st).2 ≤ t ∧
        ∃ s, U s ∧ s ≠ [] ∧ feeSum s ≤ b ∧
          (L.foldl (bruteStep D b t i) st).2.Perm s ∧
          seqScore i s = (L.foldl (bruteStep D b t i) st).1)) := by
  induction L with
  | nil => intro st h; exact h
  | cons s₀ L ih =>
    intro st hst
    rw [List.foldl_cons]
    apply ih (fun s hs => hL s (List.mem_cons_of_mem s₀ hs))
    rcases bruteStep_grow D b t i st s₀ with
      h | ⟨m, bp, heq, hbud, hmt, hperm, hm, hlt, heq2⟩
    · rw [h]; exact hst
    · rw [heq2]
      obtain ⟨hU, hne⟩ := hL s₀ (List.mem_cons_self s₀ L)
      have hbpne : bp ≠ [] := by
        intro hb
        rw [hb] at hperm
        exact hne (List.perm_nil.mp hperm.symm)
      constructor
      · intro h2; exact absurd h2 hbpne
      · intro _
        have hstge : -1 ≤ st.1 := by
          by_cases h2 : st.2 = []
          · rw [hst.1 h2]
          · exact (hst.2 h2).1.le
        refine ⟨lt_of_le_of_lt hstge hlt, ?_, s₀, hU, hne, by omega, hperm, ?_⟩
        · rw [← hm]; exact hmt
        · unfold seqScore
          rw [interestSum_perm i hperm]

theorem bruteFold_ge (D : Spot → Spot → ℚ) (b : ℕ) (t : ℚ)
    (i : Finset String) (L : List (List Spot)) :
    ∀ (st : ℚ × List Spot) (s : List Spot), s ∈ L → feeSum s ≤ b →
      (∃ p ∈ s.permutations, tourTime D p ≤ t) →
      seqScore i s ≤ (L.foldl (bruteStep D b t i) st).1 := by
  induction L with
  | nil => intro st s hs; simp at hs
  | cons s₀ L ih =>
    intro st s hs hbud hfeas
    rw [List.foldl_cons]
    rcases List.mem_cons.mp hs with h | h
    · subst h
      refine le_trans ?_ (bruteFold_fst_mono D b t i L (bruteStep D b t i st s))
      obtain ⟨p, hp, hpt⟩ := hfeas
      obtain ⟨m, bp, heq, hperm, hm, hall⟩ := bestPerm_spec D s
      have hmt : m ≤ t := le_trans (hall p hp) hpt
      unfold bruteStep
      rw [if_neg (by omega : ¬ b < feeSum s), heq]
      dsimp only
      rw [if_pos hmt]
      have hscore : ((bp.map (fun x => (x.interest_score i : ℚ))).sum -
          (feeSum s : ℚ) / 100) = seqScore i s := by
        unfold seqScore
        rw [interestSum_perm i hperm]
      by_cases h3 : st.1 < ((bp.map (fun x => (x.interest_score i : ℚ))).sum -
          (feeSum s : ℚ) / 100)
      · rw [if_pos h3]
        exact le_of_eq hscore.symm
      · rw [if_neg h3]
        exact le_trans (le_of_eq hscore.symm) (le_of_not_lt h3)
    · exact ih (bruteStep D b t i st s₀) s h hbud hfeas

theorem mem_bruteSubsets (spots : List Spot) (s : List Spot) :
    s ∈ bruteSubsets spots ↔
      s ≠ [] ∧ s.Sublist (spots.take (min spots.length 6)) := by
  unfold bruteSubsets
  simp only [List.mem_flatMap, List.mem_range, List.mem_sublistsLen]
  constructor
  · rintro ⟨r, hr, hsub, hlen⟩
    refine ⟨?_, hsub⟩
    intro h
    rw [h] at hlen
    simp at hlen
  · rintro ⟨hne, hsub⟩
    have hlen : s.length ≤ min spots.length 6 := by
      have h2 := hsub.length_le
      rw [List.length_take] at h2
      omega
    have hpos : 0 < s.length := List.length_pos.mpr hne
    exact ⟨s.length - 1, by omega, hsub, by omega⟩

theorem brute_force_eq (D : Spot → Spot → ℚ) (spots : List Spot) (b : ℕ)
    (t : ℚ) (i : Finset String) :
    brute_force D spots b t i =
      mkItinerary D
        ((bruteSubsets spots).foldl (bruteStep D b t i) (-1, [])).2
        "Brute Force" := rfl

theorem brute_sound (D : Spot → Spot → ℚ) (spots : List Spot) (b : ℕ)
    (t : ℚ) (i : Finset String) :
    (((bruteSubsets spots).foldl (bruteStep D b t i) (-1, [])).2 = [] →
       ((bruteSubsets spots).foldl (bruteStep D b t i) (-1, [])).1 = -1) ∧
    (((bruteSubsets spots).foldl (bruteStep D b t i) (-1, [])).2 ≠ [] →
       -1 < ((bruteSubsets spots).foldl (bruteStep D b t i) (-1, [])).1 ∧
       tourTime D ((bruteSubsets spots).foldl (bruteStep D b t i) (-1, [])).2 ≤ t ∧
       ∃ s, s.Sublist (spots.take (min spots.length 6)) ∧ s ≠ [] ∧
         feeSum s ≤ b ∧
         ((bruteSubsets spots).foldl (bruteStep D b t i) (-1, [])).2.Perm s ∧
         seqScore i s =
           ((bruteSubsets spots).foldl (bruteStep D b t i) (-1, [])).1) := by
  have h := bruteFold_sound D b t i
    (fun s => s.Sublist (spots.take (min spots.length 6)))
    (bruteSubsets spots)
    (fun s hs => by
      obtain ⟨h1, h2⟩ := (mem_bruteSubsets spots s).mp hs
      exact ⟨h2, h1⟩)
    (-1, []) ⟨fun _ => rfl, fun h2 => absurd rfl h2⟩
  exact h

/-- C1: for every catalog, budget, time budget and interest set (and any
distance function and any legal set-iteration order), the itinerary
returned by either planner has `total_cost` equal to the exact sum of the
entry fees of the spots in its sequence, and this total is at most the
given budget. -/
theorem planners_total_cost_spec (D : Spot → Spot → ℚ)
    (ord : List Spot → List Spot) (spots : List Spot) (b : ℕ) (t : ℚ)
    (i : Finset String) (hord : ∀ xs : List Spot, (ord xs).Perm xs) :
    ((greedy_heuristic D ord spots b t i).total_cost =
        feeSum (greedy_heuristic D ord spots b t i).spots ∧
      (greedy_heuristic D ord spots b t i).total_cost ≤ b) ∧
    ((brute_force D spots b t i).total_cost =
        feeSum (brute_force D spots b t i).spots ∧
      (brute_force D spots b t i).total_cost ≤ b) := by
  constructor
  · obtain ⟨l, hl⟩ := greedy_mk D ord spots b t i
    have hcost : (greedy_heuristic D ord spots b t i).total_cost =
        feeSum (greedy_heuristic D ord spots b t i).spots := by
      rw [hl, mkItinerary_total_cost, mkItinerary_spots]
    exact ⟨hcost, by rw [hcost]; exact greedy_cost D ord spots b t i hord⟩
  · rw [brute_force_eq, mkItinerary_total_cost, mkItinerary_spots]
    refine ⟨rfl, ?_⟩
    by_cases h : ((bruteSubsets spots).foldl (bruteStep D b t i) (-1, [])).2 = []
    · rw [h]
      exact Nat.zero_le b
    · obtain ⟨_, _, s, hsub, hne, hbud, hperm, hsc⟩ :=
        (brute_sound D spots b t i).2 h
      rw [feeSum_perm hperm]
      exact hbud

theorem planners_total_cost_spec_witness :
    ((greedy_heuristic D0 ordId [spotA] 0 10 ∅).total_cost =
        feeSum (greedy_heuristic D0 ordId [spotA] 0 10 ∅).spots ∧
      (greedy_heuristic D0 ordId [spotA] 0 10 ∅).total_cost ≤ 0) ∧
    ((brute_force D0 [spotA] 0 10 ∅).total_cost =
        feeSum (brute_force D0 [spotA] 0 10 ∅).spots ∧
      (brute_force D0 [spotA] 0 10 ∅).total_cost ≤ 0) :=
  planners_total_cost_spec D0 ordId [spotA] 0 10 ∅
    (fun xs => List.Perm.refl xs)

/-- C2: for every catalog, budget, time budget and interest set, the
itinerary returned by either planner is empty or has `total_time` within
the given time budget (for any distance function and any set-iteration
order whatsoever). -/
theorem planners_time_budget_spec (D : Spot → Spot → ℚ)
    (ord : List Spot → List Spot) (spots : List Spot) (b : ℕ) (t : ℚ)
    (i : Finset String) :
    ((greedy_heuristic D ord spots b t i).spots = [] ∨
      (greedy_heuristic D ord spots b t i).total_time ≤ t) ∧
    ((brute_force D spots b t i).spots = [] ∨
      (brute_force D spots b t i).total_time ≤ t) := by
  constructor
  · exact greedy_time D ord spots b t i
  · rw [brute_force_eq, mkItinerary_spots, mkItinerary_total_time]
    by_cases h : ((bruteSubsets spots).foldl (bruteStep D b t i) (-1, [])).2 = []
    · left; exact h
    · right; exact ((brute_sound D spots b t i).2 h).2.1

/-- C9: for well-typed non-negative budgets (budgets are naturals in the
model, time budgets non-negative rationals), both planners always return
an Itinerary value — the embedding is total, with no failure path — and an
infeasible request shows up as an empty itinerary (otherwise the returned
itinerary meets the time budget), never as an error. -/
theorem planners_total_no_error (D : Spot → Spot → ℚ)
    (ord : List Spot → List Spot) (spots : List Spot) (b : ℕ) (t : ℚ)
    (i : Finset String) (ht : 0 ≤ t) :
    (∃ it, greedy_heuristic D ord spots b t i = it ∧
      (it.spots = [] ∨ it.total_time ≤ t)) ∧
    (∃ it, brute_force D spots b t i = it ∧
      (it.spots = [] ∨ it.total_time ≤ t)) := by
  constructor
  · exact ⟨greedy_heuristic D ord spots b t i, rfl,
      greedy_time D ord spots b t i⟩
  · refine ⟨brute_force D spots b t i, rfl, ?_⟩
    rw [brute_force_eq, mkItinerary_spots, mkItinerary_total_time]
    by_cases h : ((bruteSubsets spots).foldl (bruteStep D b t i) (-1, [])).2 = []
    · left; exact h
    · right; exact ((brute_sound D spots b t i).2 h).2.1

theorem planners_total_no_error_witness :
    (∃ it, greedy_heuristic D0 ordId [spotA] 0 10 ∅ = it ∧
      (it.spots = [] ∨ it.total_time ≤ 10)) ∧
    (∃ it, brute_force D0 [spotA] 0 10 ∅ = it ∧
      (it.spots = [] ∨ it.total_time ≤ 10)) :=
  planners_total_no_error D0 ordId [spotA] 0 10 ∅ (by decide)

/-- C10: neither planner nor the route orderer introduces spots that are
not in its input: every spot of a returned itinerary is an element of the
caller's catalog, and every spot of a reordered route is an element of
the collection given to the orderer.  (In this pure embedding the catalog
itself is trivially unmodified; the code only builds new lists of the
same `Spot` values.) -/
theorem planners_no_new_sites (D : Spot → Spot → ℚ)
    (ord : List Spot → List Spot) (spots : List Spot) (b : ℕ) (t : ℚ)
    (i : Finset String) (l : List Spot)
    (hord : ∀ xs : List Spot, (ord xs).Perm xs) :
    (∀ x ∈ (greedy_heuristic D ord spots b t i).spots, x ∈ spots) ∧
    (∀ x ∈ (brute_force D spots b t i).spots, x ∈ spots) ∧
    (∀ x ∈ nearest_neighbor D ord l, x ∈ l) := by
  refine ⟨?_, ?_, ?_⟩
  · intro x hx
    obtain ⟨s, hsub, hperm⟩ := greedy_subperm D ord spots b t i hord
    exact hsub.subset (hperm.subset hx)
  · intro x hx
    rw [brute_force_eq, mkItinerary_spots] at hx
    by_cases h : ((bruteSubsets spots).foldl (bruteStep D b t i) (-1, [])).2 = []
    · rw [h] at hx
      simp at hx
    · obtain ⟨_, _, s, hsub, hne, hbud, hperm, hsc⟩ :=
        (brute_sound D spots b t i).2 h
      exact (List.take_sublist _ spots).subset (hsub.subset (hperm.subset hx))
  · intro x hx
    exact (nearest_neighbor_perm D ord l hord).subset hx

theorem planners_no_new_sites_witness :
    (∀ x ∈ (greedy_heuristic D0 ordId [spotA] 0 10 ∅).spots,
      x ∈ [spotA]) ∧
    (∀ x ∈ (brute_force D0 [spotA] 0 10 ∅).spots, x ∈ [spotA]) ∧
    (∀ x ∈ nearest_neighbor D0 ordId [spotA, spotB], x ∈ [spotA, spotB]) :=
  planners_no_new_sites D0 ordId [spotA] 0 10 ∅ [spotA, spotB]
    (fun xs => List.Perm.refl xs)

/-- C6 counterexample: with the one-site catalog `[spotA]` (entry fee 0,
so it fits even a zero budget), time budget 10 and an EMPTY interest set,
the greedy planner returns a NON-empty itinerary: the selection loop has
no minimum-score threshold, so zero-interest spots are still accepted.
This refutes the part of the claim stating that an empty interest set
yields an empty itinerary. -/
theorem greedy_empty_interests_cex :
    (greedy_heuristic D0 ordId [spotA] 0 10 ∅).spots ≠ [] := by
  with_unfolding_all decide

/-- C6 amended: the greedy planner on an empty catalog returns an empty
itinerary; with an empty interest set it still returns an itinerary
without error — empty or within the time budget — but not necessarily an
empty one. -/
theorem greedy_edge_cases_amended (D : Spot → Spot → ℚ)
    (ord : List Spot → List Spot) (b : ℕ) (t : ℚ) (i : Finset String)
    (spots2 : List Spot) (b2 : ℕ) (t2 : ℚ) :
    (greedy_heuristic D ord [] b t i).spots = [] ∧
    ∃ it, greedy_heuristic D ord spots2 b2 t2 ∅ = it ∧
      (it.spots = [] ∨ it.total_time ≤ t2) := by
  constructor
  · unfold greedy_heuristic greedySort
    simp [mkItinerary_spots]
  · exact ⟨greedy_heuristic D ord spots2 b2 t2 ∅, rfl,
      greedy_time D ord spots2 b2 t2 ∅⟩

/-- C8: whenever the brute-force planner returns a non-empty itinerary its
score is strictly greater than the initial best score -1; and on the
concrete input with empty interests and the single site `spotB` of fee
100 (a feasible subset scoring exactly -1) it returns an empty itinerary
although a feasible non-empty subset exists. -/
theorem brute_score_threshold_spec :
    (∀ (D : Spot → Spot → ℚ) (spots : List Spot) (b : ℕ) (t : ℚ)
      (i : Finset String), (brute_force D spots b t i).spots ≠ [] →
        -1 < itinScore i (brute_force D spots b t i)) ∧
    ((brute_force D0 [spotB] 100 8 ∅).spots = [] ∧
      [spotB] ∈ bruteSubsets [spotB] ∧ feeSum [spotB] ≤ 100 ∧
      (∃ p ∈ ([spotB] : List Spot).permutations, tourTime D0 p ≤ 8) ∧
      100 ≤ spotB.entry_fee ∧ seqScore ∅ [spotB] = -1) := by
  constructor
  · intro D spots b t i hne
    rw [brute_force_eq, mkItinerary_spots] at hne
    obtain ⟨hgt, htime, s, hsub, hsne, hbud, hperm, hsc⟩ :=
      (brute_sound D spots b t i).2 hne
    have : itinScore i (brute_force D spots b t i) =
        ((bruteSubsets spots).foldl (bruteStep D b t i) (-1, [])).1 := by
      rw [brute_force_eq]
      unfold itinScore
      rw [mkItinerary_spots, ← hsc]
      exact seqScore_perm i hperm
    rw [this]
    exact hgt
  · refine ⟨?_, ?_, ?_, ?_, ?_, ?_⟩ <;> with_unfolding_all decide

theorem brute_score_threshold_spec_witness :
    -1 < itinScore ∅ (brute_force D0 [spotC] 100 (21 / 10) ∅) :=
  brute_score_threshold_spec.1 D0 [spotC] 100 (21 / 10) ∅
    (by with_unfolding_all decide)

/-- C4 counterexample: on the catalog `[spotB]` with budget 100, time
budget 8 and empty interests, the subset `[spotB]` is non-empty, within
budget and its best permutation fits the time budget — a feasible subset
exists — yet `brute_force` returns an empty itinerary (the subset scores
exactly -1, which does not beat the initial best score -1).  This refutes
the claimed equivalence "empty iff no feasible subset exists". -/
theorem brute_exhaustive_optimality_cex :
    ([spotB] ∈ bruteSubsets [spotB] ∧ feeSum [spotB] ≤ 100 ∧
      (∃ p ∈ ([spotB] : List Spot).permutations, tourTime D0 p ≤ 8)) ∧
    (brute_force D0 [spotB] 100 8 ∅).spots = [] := by
  refine ⟨⟨?_, ?_, ?_⟩, ?_⟩ <;> with_unfolding_all decide

/-- C4 amended: `brute_force` returns a non-empty itinerary exactly when
some non-empty subset of the first min(catalog size, 6) sites is within
budget, has a permutation within the time budget AND scores strictly more
than -1; in that case the returned itinerary realises one such subset and
achieves the maximum score among all of them.  (The original claim's
"empty iff no feasible subset exists" only holds with the extra
score > -1 threshold.) -/
theorem brute_exhaustive_optimality_amended (D : Spot → Spot → ℚ)
    (spots : List Spot) (b : ℕ) (t : ℚ) (i : Finset String) :
    ((brute_force D spots b t i).spots ≠ [] ↔
      ∃ s, s ≠ [] ∧ s.Sublist (spots.take (min spots.length 6)) ∧
        feeSum s ≤ b ∧ (∃ p ∈ s.permutations, tourTime D p ≤ t) ∧
        -1 < seqScore i s) ∧
    ((brute_force D spots b t i).spots ≠ [] →
      ∃ s, s ≠ [] ∧ s.Sublist (spots.take (min spots.length 6)) ∧
        feeSum s ≤ b ∧ (∃ p ∈ s.permutations, tourTime D p ≤ t) ∧
        (brute_force D spots b t i).spots.Perm s ∧
        itinScore i (brute_force D spots b t i) = seqScore i s ∧
        ∀ s2, s2 ≠ [] → s2.Sublist (spots.take (min spots.length 6)) →
          feeSum s2 ≤ b → (∃ p ∈ s2.permutations, tourTime D p ≤ t) →
          seqScore i s2 ≤ itinScore i (brute_force D spots b t i)) := by
  have hspots : (brute_force D spots b t i).spots =
      ((bruteSubsets spots).foldl (bruteStep D b t i) (-1, [])).2 := by
    rw [brute_force_eq, mkItinerary_spots]
  have hscore : (brute_force D spots b t i).spots ≠ [] →
      itinScore i (brute_force D spots b t i) =
        ((bruteSubsets spots).foldl (bruteStep D b t i) (-1, [])).1 := by
    intro hne
    rw [hspots] at hne
    obtain ⟨hgt, htime, s, hsub, hsne, hbud, hperm, hsc⟩ :=
      (brute_sound D spots b t i).2 hne
    unfold itinScore
    rw [hspots, ← hsc]
    exact seqScore_perm i hperm
  constructor
  · constructor
    · intro hne
      have hne2 := hne
      rw [hspots] at hne2
      obtain ⟨hgt, htime, s, hsub, hsne, hbud, hperm, hsc⟩ :=
        (brute_sound D spots b t i).2 hne2
      refine ⟨s, hsne, hsub, hbud, ?_, ?_⟩
      · exact ⟨((bruteSubsets spots).foldl (bruteStep D b t i) (-1, [])).2,
          List.mem_permutations.mpr hperm, htime⟩
      · rw [hsc]; exact hgt
    · rintro ⟨s, hsne, hsub, hbud, hfeas, hsc⟩
      intro hempty
      rw [hspots] at hempty
      have h1 : ((bruteSubsets spots).foldl (bruteStep D b t i) (-1, [])).1 = -1 :=
        (brute_sound D spots b t i).1 hempty
      have h2 : seqScore i s ≤
          ((bruteSubsets spots).foldl (bruteStep D b t i) (-1, [])).1 :=
        bruteFold_ge D b t i (bruteSubsets spots) (-1, []) s
          ((mem_bruteSubsets spots s).mpr ⟨hsne, hsub⟩) hbud hfeas
      rw [h1] at h2
      exact absurd (lt_of_lt_of_le hsc h2) (lt_irrefl (-1))
  · intro hne
    have hne2 := hne
    rw [hspots] at hne2
    obtain ⟨hgt, htime, s, hsub, hsne, hbud, hperm, hsc⟩ :=
      (brute_sound D spots b t i).2 hne2
    refine ⟨s, hsne, hsub, hbud, ?_, ?_, ?_, ?_⟩
    · exact ⟨((bruteSubsets spots).foldl (bruteStep D b t i) (-1, [])).2,
        List.mem_permutations.mpr hperm, htime⟩
    · rw [hspots]; exact hperm
    · rw [hscore hne, ← hsc]
    · intro s2 hs2ne hs2sub hs2bud hs2feas
      rw [hscore hne]
      exact bruteFold_ge D b t i (bruteSubsets spots) (-1, []) s2
        ((mem_bruteSubsets spots s2).mpr ⟨hs2ne, hs2sub⟩) hs2bud hs2feas

theorem brute_exhaustive_optimality_amended_witness :
    (brute_force D0 [spotA] 0 10 {"culture"}).spots ≠ [] ∧
    ∃ s, s ≠ [] ∧ s.Sublist ([spotA].take (min (List.length [spotA]) 6)) ∧
      feeSum s ≤ 0 ∧ (∃ p ∈ s.permutations, tourTime D0 p ≤ 10) ∧
      (brute_force D0 [spotA] 0 10 {"culture"}).spots.Perm s ∧
      itinScore {"culture"} (brute_force D0 [spotA] 0 10 {"culture"}) =
        seqScore {"culture"} s ∧
      ∀ s2, s2 ≠ [] → s2.Sublist ([spotA].take (min (List.length [spotA]) 6)) →
        feeSum s2 ≤ 0 → (∃ p ∈ s2.permutations, tourTime D0 p ≤ 10) →
        seqScore {"culture"} s2 ≤
          itinScore {"culture"} (brute_force D0 [spotA] 0 10 {"culture"}) := by
  have hne : (brute_force D0 [spotA] 0 10 {"culture"}).spots ≠ [] :=
    (brute_exhaustive_optimality_amended D0 [spotA] 0 10 {"culture"}).1.mpr
      ⟨[spotA], by with_unfolding_all decide, by with_unfolding_all decide,
        by with_unfolding_all decide, by with_unfolding_all decide,
        by with_unfolding_all decide⟩
  exact ⟨hne,
    (brute_exhaustive_optimality_amended D0 [spotA] 0 10 {"culture"}).2 hne⟩

theorem seqScore_nil (i : Finset String) : seqScore i [] = 0 := by
  simp [seqScore, feeSum]

/-- C3 counterexample: catalog `[spotC]` (fee 50, no tags), budget 100,
time budget 2.1, empty interests.  The greedy selection loop demands
2.0 + 0.5 hours for the first site and rejects it (2.5 > 2.1), returning
the empty itinerary with score 0; brute force needs only the true visit
time 2.0 ≤ 2.1, accepts the site, and returns an itinerary of score
-0.5 < 0.  So the exhaustive planner's score is strictly WORSE than the
greedy one's, refuting the unconditional claim. -/
theorem exhaustive_not_worse_cex :
    itinScore ∅ (brute_force D0 [spotC] 100 (21 / 10) ∅) <
      itinScore ∅ (greedy_heuristic D0 ordId [spotC] 100 (21 / 10) ∅) := by
  with_unfolding_all decide

/-- C3 amended: on catalogs of at most 6 sites, WHENEVER the greedy
planner returns a non-empty itinerary, the brute-force itinerary's score
is at least the greedy itinerary's score.  (When greedy returns the empty
itinerary the bound can fail, as the counterexample shows.) -/
theorem exhaustive_not_worse_amended (D : Spot → Spot → ℚ)
    (ord : List Spot → List Spot) (spots : List Spot) (b : ℕ) (t : ℚ)
    (i : Finset String) (hord : ∀ xs : List Spot, (ord xs).Perm xs)
    (hlen : spots.length ≤ 6)
    (hne : (greedy_heuristic D ord spots b t i).spots ≠ []) :
    itinScore i (greedy_heuristic D ord spots b t i) ≤
      itinScore i (brute_force D spots b t i) := by
  obtain ⟨s, hsub, hperm⟩ := greedy_subperm D ord spots b t i hord
  have hsne : s ≠ [] := by
    intro h
    rw [h] at hperm
    exact hne (List.perm_nil.mp hperm)
  have hsub2 : s.Sublist (spots.take (min spots.length 6)) := by
    rw [min_eq_left hlen, List.take_length]
    exact hsub
  have hbud : feeSum s ≤ b := by
    rw [← feeSum_perm hperm]
    exact greedy_cost D ord spots b t i hord
  obtain ⟨l, hl⟩ := greedy_mk D ord spots b t i
  have htteq : (greedy_heuristic D ord spots b t i).total_time =
      tourTime D (greedy_heuristic D ord spots b t i).spots := by
    rw [hl, mkItinerary_total_time, mkItinerary_spots]
  have htime : tourTime D (greedy_heuristic D ord spots b t i).spots ≤ t := by
    rcases greedy_time D ord spots b t i with h | h
    · exact absurd h hne
    · rw [← htteq]
      exact h
  have hfeas : ∃ p ∈ s.permutations, tourTime D p ≤ t :=
    ⟨(greedy_heuristic D ord spots b t i).spots,
      List.mem_permutations.mpr hperm, htime⟩
  have hge : seqScore i s ≤
      ((bruteSubsets spots).foldl (bruteStep D b t i) (-1, [])).1 :=
    bruteFold_ge D b t i (bruteSubsets spots) (-1, []) s
      ((mem_bruteSubsets spots s).mpr ⟨hsne, hsub2⟩) hbud hfeas
  have hgsc : itinScore i (greedy_heuristic D ord spots b t i) =
      seqScore i s := seqScore_perm i hperm
  by_cases hb : ((bruteSubsets spots).foldl (bruteStep D b t i) (-1, [])).2 = []
  · have h1 : ((bruteSubsets spots).foldl (bruteStep D b t i) (-1, [])).1 = -1 :=
      (brute_sound D spots b t i).1 hb
    have h0 : itinScore i (brute_force D spots b t i) = 0 := by
      unfold itinScore
      rw [brute_force_eq, mkItinerary_spots, hb]
      exact seqScore_nil i
    rw [hgsc, h0]
    rw [h1] at hge
    linarith
  · obtain ⟨hgt, htime2, s2, hsub3, hs2ne, hbud2, hperm2, hsc2⟩ :=
      (brute_sound D spots b t i).2 hb
    have hbsc : itinScore i (brute_force D spots b t i) =
        ((bruteSubsets spots).foldl (bruteStep D b t i) (-1, [])).1 := by
      unfold itinScore
      rw [brute_force_eq, mkItinerary_spots, ← hsc2]
      exact seqScore_perm i hperm2
    rw [hgsc, hbsc]
    exact hge

theorem exhaustive_not_worse_amended_witness :
    itinScore {"culture"} (greedy_heuristic D0 ordId [spotA] 0 10 {"culture"}) ≤
      itinScore {"culture"} (brute_force D0 [spotA] 0 10 {"culture"}) :=
  exhaustive_not_worse_amended D0 ordId [spotA] 0 10 {"culture"}
    (fun xs => List.Perm.refl xs) (by decide)
    (by with_unfolding_all decide)
